import Mathlib

/-!
Verification of the dml structural row-mapping library.

The Go source is shallowly embedded: pure algorithms become Lean functions,
pointer-mutating loops become explicit state passing, `error` results become
`Except String` / `Option`, and the reflective parts (struct traversal,
slices) are modelled by explicit data types mirroring the information the
reflection API exposes.
-/

namespace Dml

/-! ### Column matcher (intermediate.go)

`ScanMap` is `[]int`: for each incoming column index, the index of the field
that receives it, or the sentinel `-1` meaning "discard".  Go `int` is
modelled as `Int` (the sentinel is genuinely negative). -/

/-- The `iln` linked list of column indices is a FIFO queue; its `end`
pointer is an O(1)-append device with no observable effect, so the queue is
modelled as the list of queued indices.  `add` appends an index at the end
and returns the new list. -/
def ilnAdd (n : List Nat) (i : Nat) : List Nat := n ++ [i]

/-- `iln.yoink` pulls an index from the beginning of the list, returning it
together with the new list head; on the empty (nil) list it returns neither. -/
def ilnYoink : List Nat → Option Nat × List Nat
  | [] => (none, [])
  | x :: xs => (some x, xs)

/-- Inner loop of `BuildMap`'s direct O(m·n) strategy, for one field name
`n`: walk the columns left to right (index `j` starting at the given value),
skip columns already claimed (`output[j] != -1`), and return the first
remaining column whose name equals `n`. -/
def findSlotFrom (n : String) : List String → Nat → List Int → Option Nat
  | [], _, _ => none
  | c :: cs, j, out =>
    if out.getD j 0 ≠ -1 then findSlotFrom n cs (j + 1) out
    else if n = c then some j
    else findSlotFrom n cs (j + 1) out

/-- Outer loop of the direct strategy: for each field `(i, n)` in order,
claim the slot found by the inner scan (`output[j] = i`); a field with no
matching column is skipped.  State `out` is the `output` array. -/
def directLoop (columns : List String) : List (Nat × String) → List Int → List Int
  | [], out => out
  | (i, n) :: rest, out =>
    match findSlotFrom n columns 0 out with
    | some j => directLoop columns rest (out.set j (i : Int))
    | none => directLoop columns rest out

/-- The hash-bucketed strategy's first pass: `columnsByName[c.Name()].add(i)`
for each column, building a name → FIFO queue of column indices map.  The Go
map with nil-on-missing-key is a total function defaulting to the empty
queue. -/
def buildQueues : List String → Nat → (String → List Nat) → (String → List Nat)
  | [], _, q => q
  | c :: cs, i, q => buildQueues cs (i + 1) (Function.update q c (ilnAdd (q c) i))

/-- The hash-bucketed strategy's second pass: for each field `(i, n)` in
order, dequeue (`yoink`) the next column index queued under `n`; if one
exists, claim it (`output[x] = i`).  The dequeued tail is written back to
the map in either case, as in the source. -/
def hashedLoop : List (Nat × String) → (String → List Nat) → List Int → List Int
  | [], _, out => out
  | (i, n) :: rest, q, out =>
    match ilnYoink (q n) with
    | (some j, q') => hashedLoop rest (Function.update q n q') (out.set j (i : Int))
    | (none, q') => hashedLoop rest (Function.update q n q') out

/-- The direct O(m·n) nested-scan strategy of `BuildMap`, starting from an
all-`-1` output of the columns' length. -/
def buildMapDirect (columns fieldNames : List String) : List Int :=
  directLoop columns fieldNames.enum (List.replicate columns.length (-1))

/-- The hash-bucketed strategy of `BuildMap`, starting from the empty map
and an all-`-1` output. -/
def buildMapHashed (columns fieldNames : List String) : List Int :=
  hashedLoop fieldNames.enum (buildQueues columns 0 fun _ => []) (List.replicate columns.length (-1))

/-- `BuildMap` (intermediate.go).  The argument is the result of the
scannable's column enumeration: an error, Go `nil` (modelled `none`,
meaning "skip the mapping step" — the verbatim mode), or the list of column
names.  The strategy is chosen by the signed-integer test
`(len(columns)-5)*(len(fields.Names)-5) > 100`. -/
def BuildMap (columnsResult : Except String (Option (List String)))
    (fieldNames : List String) : Except String (Option (List Int)) :=
  match columnsResult with
  | .error e => .error e
  | .ok none => .ok none
  | .ok (some columns) =>
    .ok (some (if ((columns.length : Int) - 5) * ((fieldNames.length : Int) - 5) > 100
      then buildMapHashed columns fieldNames
      else buildMapDirect columns fieldNames))

/-! ### Equivalence of the two matching strategies

The coupling invariant: at every point of the field loop, the queue stored
under a name `n` is exactly the ascending list of still-unclaimed column
indices bearing that name. -/

/-- The ascending list of column indices `≥ j` (position `j` holding the
first listed column) whose name is `n` and whose output slot is still the
sentinel `-1`. -/
def unclaimedFrom (n : String) : List String → Nat → List Int → List Nat
  | [], _, _ => []
  | c :: cs, j, out =>
    if c = n ∧ out.getD j 0 = -1 then j :: unclaimedFrom n cs (j + 1) out
    else unclaimedFrom n cs (j + 1) out

/-! ### The FIFO pairing rule, as the specification words it

Spec-side rendering of §4.4: each field name, taken in field order, claims
the leftmost not-yet-claimed column sharing its name; a column claimed by
no field maps to the discard sentinel `-1`; a field with no matching column
contributes no claim.  This is kept deliberately separate from the source
translation above so the source algorithm can be proved to refine it. -/

/-- The leftmost column (scanning positions from `j` upward) whose name is
`n` and whose index is not yet in `claimed`. -/
def leftmostFrom (n : String) (claimed : List Nat) : List String → Nat → Option Nat
  | [], _ => none
  | c :: cs, j => if c = n ∧ j ∉ claimed then some j else leftmostFrom n claimed cs (j + 1)

/-- The FIFO claim process: fields in order, each claiming the leftmost
not-yet-claimed column of its name (if any), producing (field index,
column index) pairs. -/
def claimFields (columns : List String) : List (Nat × String) → List Nat → List (Nat × Nat)
  | [], _ => []
  | (i, n) :: rest, claimed =>
    match leftmostFrom n claimed columns 0 with
    | some j => (i, j) :: claimFields columns rest (j :: claimed)
    | none => claimFields columns rest claimed

/-- Rendering claims as a position map: entry `j` is the field index that
claimed column `j`, or the discard sentinel `-1`. -/
def renderPositionMap (m : Nat) (claims : List (Nat × Nat)) : List Int :=
  (List.range m).map fun j =>
    match claims.find? (fun p => p.2 == j) with
    | some p => (p.1 : Int)
    | none => -1

/-- The position map the specification describes. -/
def specFifoMap (columns fieldNames : List String) : List Int :=
  renderPositionMap columns.length (claimFields columns fieldNames.enum [])


/-! ### Scan executor (scaninto.go)

Field handles (`interface{}` values in the Go field lists) are abstract
values of a type `α`; the extra constructor `noop` is the internal
`noopScanner`, the discard receiver inserted for unmapped columns. -/

/-- An element of the `[]interface{}` list handed to a row source's `Scan`:
either a real field handle or the discarding `noopScanner`. -/
inductive Target (α : Type) where
  | field : α → Target α
  | noop : Target α
deriving DecidableEq, Repr

/-- `NamedFields`: parallel lists of field names and field handles. -/
structure NamedFields (α : Type) where
  Names : List String
  Fields : List α
deriving DecidableEq, Repr

/-- `n.Append(other)` concatenates both parallel lists. -/
def NamedFields.Append (n other : NamedFields α) : NamedFields α :=
  ⟨n.Names ++ other.Names, n.Fields ++ other.Fields⟩

/-- `n.Push(name, field)` appends one named field. -/
def NamedFields.Push (n : NamedFields α) (name : String) (f : α) : NamedFields α :=
  ⟨n.Names ++ [name], n.Fields ++ [f]⟩

/-- The `Scannable` collaborator: a row source offering only the
single-shot scan.  Its behaviour is the function from the handle list it
receives to the outcome it reports. -/
structure Scannable (α : Type) where
  Scan : List (Target α) → Except String Unit

/-- The `AdvancedScannable` collaborator: `Scannable` plus column
enumeration.  `ColumnNames` yields an error, the Go-`nil` "unavailable"
sentinel (`none`), or the ordered column-name list; only the names of the
`ColumnTypes()` metadata are ever consumed. -/
structure AdvancedScannable (α : Type) where
  toScannable : Scannable α
  ColumnNames : Except String (Option (List String))

/-- `ScanWithMappedFields` (scaninto.go): with a Go-`nil` map (`none`) the
field list is passed verbatim; otherwise a new list the map's length is
built, slot `idx_from` holding `noopScanner` for the `-1` sentinel and the
mapped field handle otherwise.  An empty final list is an error before the
row source is ever invoked.  (Indexing is total here via `getD`; Go panics
on an out-of-range map entry, which maps produced by `BuildMap` never
contain.) -/
def ScanWithMappedFields [Inhabited α] (s : Scannable α) (m : Option (List Int))
    (fields : NamedFields α) : Except String Unit :=
  let field_list : List (Target α) :=
    match m with
    | none => fields.Fields.map Target.field
    | some mm => mm.map fun idx =>
        if idx = -1 then Target.noop
        else Target.field (fields.Fields.getD idx.toNat default)
  if field_list.length = 0 then .error "cannot scan into empty list of fields"
  else s.Scan field_list

/-- A target object of a scan (`ScanInto`).  Reflective field discovery is
abstracted into the object itself: `GetFields` is the outcome of
`GetFieldsFrom` on the object, `PostScan` is `some outcome` exactly when
the object implements `ScanIntoPostProcessable`, and `id` identifies the
object in the hook-invocation log. -/
structure ScanIntoObj (α : Type) where
  id : Nat
  GetFields : Except String (NamedFields α)
  PostScan : Option (Except String Unit)

/-- `GetFieldsFrom`, abstracted per the `ScanIntoObj` model. -/
def GetFieldsFrom (t : ScanIntoObj α) : Except String (NamedFields α) :=
  t.GetFields

/-- The accumulation loop of `BuildNamedFields` over `into[1:]`. -/
def buildNamedFieldsLoop : List (ScanIntoObj α) → NamedFields α → Except String (NamedFields α)
  | [], fields => .ok fields
  | x :: xs, fields =>
    match GetFieldsFrom x with
    | .error e => .error e
    | .ok nf => buildNamedFieldsLoop xs (fields.Append nf)

/-- `BuildNamedFields` (intermediate.go): an empty target list is an
immediate arity error; otherwise the targets' field lists are concatenated
in order. -/
def BuildNamedFields : List (ScanIntoObj α) → Except String (NamedFields α)
  | [] => .error "empty output object list"
  | first :: rest =>
    match GetFieldsFrom first with
    | .error e => .error e
    | .ok fields => buildNamedFieldsLoop rest fields

/-- `postScan` (intermediate.go), instrumented with a log of the ids of the
targets whose `PostScan` hook was invoked, in invocation order.  A hook
that fails stops the walk; its own invocation is still logged. -/
def postScan : List (ScanIntoObj α) → Except String Unit × List Nat
  | [] => (.ok (), [])
  | x :: xs =>
    match x.PostScan with
    | none => postScan xs
    | some (.error e) => (.error e, [x.id])
    | some (.ok _) =>
      let r := postScan xs
      (r.1, x.id :: r.2)

/-- The common tail of the scan entry points: `if err != nil { return err };
return postScan(into)` — a scan error is returned with no hook invoked,
success hands over to the hook walk. -/
def afterScan (into : List (ScanIntoObj α)) (r : Except String Unit) :
    Except String Unit × List Nat :=
  match r with
  | .error e => (.error e, [])
  | .ok _ => postScan into

/-- `QuickScan` (scaninto.go): build the named fields, scan verbatim
(Go-`nil` map), then run the post-scan hooks.  The second component is the
hook-invocation log (empty unless the scan phase succeeded). -/
def QuickScan [Inhabited α] (s : Scannable α) (into : List (ScanIntoObj α)) :
    Except String Unit × List Nat :=
  match BuildNamedFields into with
  | .error e => (.error e, [])
  | .ok fields => afterScan into (ScanWithMappedFields s none fields)

/-- `ScanWithFields` (scaninto.go): build the map from the advanced
scannable's column enumeration, then execute. -/
def ScanWithFields [Inhabited α] (adv : AdvancedScannable α) (fields : NamedFields α) :
    Except String Unit :=
  match BuildMap adv.ColumnNames fields.Names with
  | .error e => .error e
  | .ok m => ScanWithMappedFields adv.toScannable m fields

/-- `Scan` (scaninto.go): full pre-processing and field matching, then the
post-scan hooks; hook log as in `QuickScan`. -/
def Scan [Inhabited α] (adv : AdvancedScannable α) (into : List (ScanIntoObj α)) :
    Except String Unit × List Nat :=
  match BuildNamedFields into with
  | .error e => (.error e, [])
  | .ok fields => afterScan into (ScanWithFields adv fields)

/-- `ScanWithMap` (scaninto.go): like `Scan` with a caller-supplied map. -/
def ScanWithMap [Inhabited α] (s : Scannable α) (m : Option (List Int))
    (into : List (ScanIntoObj α)) : Except String Unit × List Nat :=
  match BuildNamedFields into with
  | .error e => (.error e, [])
  | .ok fields => afterScan into (ScanWithMappedFields s m fields)

/-- The targets implementing the post-scan capability, in target order —
what the hook log of a fully successful scan must be. -/
def hookTargets (into : List (ScanIntoObj α)) : List Nat :=
  (into.filter fun t => t.PostScan.isSome).map fun t => t.id

/-! ### The `sql.Row` wrapper (scannables.go) -/

/-- `scannableWrapper`: the shim that makes a bare `Scannable` behave like
a one-row `IterableScannable`.  The embedded scannable is `inner`; `done`
records whether `Next` has been called. -/
structure scannableWrapper (σ : Type) where
  inner : σ
  done : Bool
deriving DecidableEq, Repr

/-- `Next()` returns true on the first call and false on subsequent calls;
the mutation of the receiver is modelled by returning the new state. -/
def scannableWrapper.Next (s : scannableWrapper σ) : Bool × scannableWrapper σ :=
  if s.done then (false, s) else (true, { s with done := true })

/-- `Err()` always returns nil. -/
def scannableWrapper.Err (_s : scannableWrapper σ) : Option String :=
  none

/-- `ColumnNames()` (`ColumnTypes()` in the earlier generation) returns
`(nil, nil)`: the "no column metadata" sentinel with no error. -/
def scannableWrapper.ColumnNames (_s : scannableWrapper σ) :
    Except String (Option (List String)) :=
  .ok none

/-- `WrapBasic`: wrap a bare scannable, `done` starting false. -/
def WrapBasic (inner : σ) : scannableWrapper σ :=
  { inner := inner, done := false }

/-! ### Sequence grower (`ScanArray`)

The per-row loop of `ScanArray` is modelled from the point where the
`rewind` deferred truncation is armed (everything before it either
succeeds or returns before any append).  The iterable source is abstracted
into the sequence of per-iteration outcomes: `Next()` answers true once
per list entry, and each entry tells how that iteration ends — the
`it.Err()` check fails, `RenderNamedFields` fails, the mapped scan fails,
or the scan succeeds and writes `vals i` into the freshly appended last
element of slice `i` (through the pointers the field list carries). -/
inductive StepResult (α : Type) where
  | iterErr : StepResult α
  | renderErr : StepResult α
  | scanErr : StepResult α
  | scanOk : (Nat → α) → StepResult α

/-- Whether an iteration runs to a successful scan. -/
def StepResult.isOk : StepResult α → Bool
  | .scanOk _ => true
  | _ => false

/-- Overwrite the last element of slice `i` with `vals i`, for each slice:
the effect of a successful row scan on the just-appended elements. -/
def populateLast (vals : Nat → α) : Nat → List (List α) → List (List α)
  | _, [] => []
  | i, s :: rest => (s.dropLast ++ [vals i]) :: populateLast vals (i + 1) rest

/-- The `for it.Next()` loop of `ScanArray` with its deferred rollback:
each iteration first appends a zero value to every slice; on any of the
three failure outcomes every slice is truncated by one (`SetLen(len-1)`)
and the error state is reported (`true`); a successful scan populates the
appended elements and iteration continues; exhausting the source clears
`rewind` and reports success (`false`). -/
def ScanArrayLoop (zero : α) : List (StepResult α) → List (List α) → List (List α) × Bool
  | [], slices => (slices, false)
  | step :: rest, slices =>
    let appended := slices.map (· ++ [zero])
    match step with
    | .scanOk vals => ScanArrayLoop zero rest (populateLast vals 0 appended)
    | _ => (appended.map List.dropLast, true)

/-- The state the slices should reach after a run of successful
iterations: each one appends and populates, nothing is ever rolled back. -/
def okState (zero : α) : List (StepResult α) → List (List α) → List (List α)
  | [], slices => slices
  | .scanOk vals :: rest, slices =>
    okState zero rest (populateLast vals 0 (slices.map (· ++ [zero])))
  | _ :: _, slices => slices

/-- `ScanArray`'s loop together with its post-scan hook-invocation log:
the function body contains no call to `postScan`, so the log is empty. -/
def ScanArrayRun (zero : α) (steps : List (StepResult α)) (slices : List (List α)) :
    (List (List α) × Bool) × List Nat :=
  (ScanArrayLoop zero steps slices, [])

/-! ### Descriptor builder (cache.go)

The reflective view of a Go type.  A struct's field list is encoded as a
cons chain inside `GoType` itself (`snil`/`scons`) so that the builder is
structurally recursive; `GoFieldInfo` carries exactly the `reflect`
attributes the builder consults: field name, `PkgPath` (empty iff the
field is exported), the anonymous flag and the `dml` tag. -/
structure GoFieldInfo where
  name : String
  pkgPath : String
  anonymous : Bool
  tag : Option String
deriving DecidableEq, Repr

/-- A Go type as the builder sees it: a non-struct (`base`), or a struct
given as a chain of fields ending in `snil`.  Each carries whether the
type implements `sql.Scanner`; for a struct the flag sits on its
terminator. -/
inductive GoType where
  | base (scanner : Bool) : GoType
  | snil (scanner : Bool) : GoType
  | scons (info : GoFieldInfo) (ftype : GoType) (rest : GoType) : GoType
deriving DecidableEq, Repr

/-- `Kind() == reflect.Struct`. -/
def isStruct : GoType → Bool
  | .base _ => false
  | _ => true

/-- `Implements(sqlScannerType)`. -/
def typeScanner : GoType → Bool
  | .base s => s
  | .snil s => s
  | .scons _ _ rest => typeScanner rest

/-- `namedFieldsCache`: the instance-agnostic descriptor — parallel lists
of external names, field paths and self-scanner flags. -/
structure namedFieldsCache where
  Names : List String
  Fields : List (List Nat)
  IsScanner : List Bool
deriving DecidableEq, Repr

/-- `Push(name, prefix, value, scanner)`: append one entry, its path being
the prefix extended by the field index (the three-index slice in the
source forces the append to copy, so this is pure list concatenation). -/
def namedFieldsCache.Push (c : namedFieldsCache) (name : String) (pathPre : List Nat)
    (value : Nat) (scanner : Bool) : namedFieldsCache :=
  ⟨c.Names ++ [name], c.Fields ++ [pathPre ++ [value]], c.IsScanner ++ [scanner]⟩

/-- `Append(other)`: concatenate all three parallel lists. -/
def namedFieldsCache.Append (c other : namedFieldsCache) : namedFieldsCache :=
  ⟨c.Names ++ other.Names, c.Fields ++ other.Fields, c.IsScanner ++ other.IsScanner⟩

/-- The field loop of `buildNamedFieldsCacheForType`, walking the chain of
fields with the running index `i`, accumulated path prefix and the output
being built: an exported field bearing a `dml` tag is pushed; otherwise an
anonymous struct field is recursed into (its result appended, its error
wrapped with the field name); every other field is skipped. -/
def buildCacheFields : GoType → Nat → List Nat → namedFieldsCache → Except String namedFieldsCache
  | .scons info ftype rest, i, path, output =>
    if info.pkgPath = "" ∧ info.tag.isSome then
      buildCacheFields rest (i + 1) path (output.Push (info.tag.getD "") path i (typeScanner ftype))
    else if info.anonymous ∧ isStruct ftype then
      match buildCacheFields ftype 0 (path ++ [i]) ⟨[], [], []⟩ with
      | .error e => .error ("error examining field " ++ info.name ++ ": " ++ e)
      | .ok sub => buildCacheFields rest (i + 1) path (output.Append sub)
    else buildCacheFields rest (i + 1) path output
  | _, _, _, output => .ok output

/-- `buildNamedFieldsCacheForType` (cache.go): reject non-struct types,
then run the field loop from index 0 with an empty output. -/
def buildNamedFieldsCacheForType (t : GoType) (path : List Nat) : Except String namedFieldsCache :=
  match t with
  | .base _ => .error "tried to analyze field structure of non-struct type"
  | t => buildCacheFields t 0 path ⟨[], [], []⟩

/-- Spec-side (§4.1): the contribution of the single field `(info, ftype)`
declared at index `i`: one entry (path extended by `i`) if it is exported
and tagged; the whole sub-descriptor of the embedded struct (expanded at
this point, path extended by `i`) if it is anonymous and a struct; nothing
otherwise — in particular nothing for unexported tagged fields and for
named nested structs. -/
def fieldContribution (path : List Nat) (i : Nat) (info : GoFieldInfo) (ftype : GoType) :
    Except String namedFieldsCache :=
  if info.pkgPath = "" ∧ info.tag.isSome then
    .ok ⟨[info.tag.getD ""], [path ++ [i]], [typeScanner ftype]⟩
  else if info.anonymous ∧ isStruct ftype then
    match buildNamedFieldsCacheForType ftype (path ++ [i]) with
    | .error e => .error ("error examining field " ++ info.name ++ ": " ++ e)
    | .ok sub => .ok sub
  else .ok ⟨[], [], []⟩

/-- Spec-side: the descriptor of a struct as the in-declaration-order
concatenation of its fields' independent contributions. -/
def descFlatten : GoType → Nat → List Nat → Except String namedFieldsCache
  | .scons info ftype rest, i, path =>
    match fieldContribution path i info ftype with
    | .error e => .error e
    | .ok head =>
      match descFlatten rest (i + 1) path with
      | .error e => .error e
      | .ok tail => .ok (head.Append tail)
  | _, _, _ => .ok ⟨[], [], []⟩

/-- Example type for the order-preservation scenario: an anonymous
embedded struct tagged `f0` declared before plain tagged fields `f1`,
`f2`, plus an unexported tagged field and a named (non-anonymous) nested
struct, both of which must contribute nothing. -/
def exampleEmbedded : GoType :=
  .scons ⟨"A", "", false, some "f0"⟩ (.base false) (.snil false)

def exampleNamed : GoType :=
  .scons ⟨"B", "", false, some "inner"⟩ (.base false) (.snil false)

def exampleStruct : GoType :=
  .scons ⟨"E", "", true, none⟩ exampleEmbedded
    (.scons ⟨"F1", "", false, some "f1"⟩ (.base false)
      (.scons ⟨"F2", "", false, some "f2"⟩ (.base false)
        (.scons ⟨"hidden", "internal/pkg", false, some "nope"⟩ (.base false)
          (.scons ⟨"Named", "", false, none⟩ exampleNamed
            (.snil false)))))

/-! ### Descriptor cache (cache.go)

`reflect.Type` identities are modelled as `Nat` keys resolved through a
type environment; the double-checked locking of `GetFieldsFrom` collapses,
for a single caller, to: look up, and on a miss build and store. -/

/-- One resolution step against the cache: a hit returns the cached
descriptor and leaves the cache unchanged; a miss builds the descriptor
for the type, stores it, and returns it.  A build failure is returned
without caching. -/
def resolveDescriptor (tenv : Nat → GoType) (cache : List (Nat × namedFieldsCache))
    (tid : Nat) : Except String (namedFieldsCache × List (Nat × namedFieldsCache)) :=
  match cache.lookup tid with
  | some cached => .ok (cached, cache)
  | none =>
    match buildNamedFieldsCacheForType (tenv tid) [] with
    | .error e => .error e
    | .ok built => .ok (built, (tid, built) :: cache)

/-- Cache well-formedness: every stored descriptor is what a fresh build
for its type produces — the invariant the idempotent-build race rests on. -/
def cacheWF (tenv : Nat → GoType) (cache : List (Nat × namedFieldsCache)) : Prop :=
  ∀ p ∈ cache, buildNamedFieldsCacheForType (tenv p.1) [] = .ok p.2

/-! ### Concrete check values and proofs -/

example : buildMapDirect ["a", "a"] ["a", "a"] = [0, 1] := by rfl
example : buildMapDirect ["a", "a"] ["a"] = [0, -1] := by rfl
example : buildMapHashed ["a", "a"] ["a", "a"] = [0, 1] := by rfl
example : buildMapHashed ["a", "b", "a"] ["a", "x", "a", "b"] = [0, 3, 2] := by rfl
example : buildMapDirect ["a", "b", "a"] ["a", "x", "a", "b"] = [0, 3, 2] := by rfl
example : specFifoMap ["a", "a"] ["a", "a"] = [0, 1] := by rfl
example : specFifoMap ["a", "a"] ["a"] = [0, -1] := by rfl
example : specFifoMap ["a", "b", "a"] ["a", "x", "a", "b"] = [0, 3, 2] := by rfl

theorem findSlotFrom_eq_head (n : String) (cs : List String) (j : Nat) (out : List Int) :
    findSlotFrom n cs j out = (unclaimedFrom n cs j out).head? := by
  induction cs generalizing j with
  | nil => rfl
  | cons c cs ih =>
    simp only [findSlotFrom, unclaimedFrom]
    by_cases hm : out.getD j 0 = -1
    · rw [if_neg (not_not_intro hm)]
      by_cases hn : n = c
      · rw [if_pos hn, if_pos ⟨hn.symm, hm⟩]
        rfl
      · rw [if_neg hn, if_neg (fun h => hn h.1.symm), ih]
    · rw [if_pos hm, if_neg (fun h => hm h.2), ih]

theorem unclaimedFrom_lb (n : String) (cs : List String) (j : Nat) (out : List Int)
    {x : Nat} (hx : x ∈ unclaimedFrom n cs j out) : j ≤ x := by
  induction cs generalizing j with
  | nil => simp [unclaimedFrom] at hx
  | cons c cs ih =>
    simp only [unclaimedFrom] at hx
    split at hx
    · rcases List.mem_cons.1 hx with h | h
      · omega
      · have := ih (j + 1) h; omega
    · have := ih (j + 1) hx; omega

theorem getD_set_ne (out : List Int) {j k : Nat} (h : j ≠ k) (v : Int) :
    (out.set j v).getD k 0 = out.getD k 0 := by
  simp [List.getD_eq_getElem?_getD, List.getElem?_set_ne h]

/-- Writing a non-sentinel value into a slot that is not on the unclaimed
list of a name leaves that name's unclaimed list unchanged. -/
theorem unclaimedFrom_set_not_mem (n : String) (cs : List String) (k : Nat) (out : List Int)
    {j : Nat} {v : Int} (hv : v ≠ -1) (hj : j ∉ unclaimedFrom n cs k out) :
    unclaimedFrom n cs k (out.set j v) = unclaimedFrom n cs k out := by
  induction cs generalizing k with
  | nil => rfl
  | cons c cs ih =>
    simp only [unclaimedFrom] at hj ⊢
    by_cases hk : j = k
    · subst hk
      have hcond : ¬ (c = n ∧ out.getD j 0 = -1) := by
        intro h
        rw [if_pos h] at hj
        exact hj (List.mem_cons_self _ _)
      have hcond' : ¬ (c = n ∧ (out.set j v).getD j 0 = -1) := by
        rintro ⟨hc, hd⟩
        rcases Nat.lt_or_ge j out.length with hlt | hge
        · rw [List.getD_eq_getElem?_getD, List.getElem?_set_self hlt] at hd
          exact hv (by simpa using hd)
        · rw [List.getD_eq_getElem?_getD, List.getElem?_eq_none (by simpa using hge)] at hd
          simp at hd
      rw [if_neg hcond, if_neg hcond']
      exact ih (j + 1) (by rw [if_neg hcond] at hj; exact hj)
    · have hd : (out.set j v).getD k 0 = out.getD k 0 := getD_set_ne out hk v
      rw [hd]
      by_cases hcond : c = n ∧ out.getD k 0 = -1
      · rw [if_pos hcond, if_pos hcond]
        have hj' : j ∉ unclaimedFrom n cs (k + 1) out := by
          rw [if_pos hcond] at hj
          exact fun h => hj (List.mem_cons_of_mem _ h)
        rw [ih (k + 1) hj']
      · rw [if_neg hcond, if_neg hcond]
        rw [if_neg hcond] at hj
        exact ih (k + 1) hj

/-- Claiming the head of a name's unclaimed list (writing a field index,
which is never the sentinel) removes exactly that head. -/
theorem unclaimedFrom_set_head (n : String) (cs : List String) (k : Nat) (out : List Int)
    {j : Nat} {rest : List Nat} (i : Nat)
    (he : unclaimedFrom n cs k out = j :: rest) :
    unclaimedFrom n cs k (out.set j (i : Int)) = rest := by
  have hv : (i : Int) ≠ -1 := by omega
  induction cs generalizing k with
  | nil => simp [unclaimedFrom] at he
  | cons c cs ih =>
    simp only [unclaimedFrom] at he ⊢
    by_cases hcond : c = n ∧ out.getD k 0 = -1
    · rw [if_pos hcond] at he
      have hk : j = k := by injection he with h _; omega
      subst hk
      have hrest : rest = unclaimedFrom n cs (j + 1) out := by injection he with _ h; exact h.symm
      have hcond' : ¬ (c = n ∧ (out.set j (i : Int)).getD j 0 = -1) := by
        rintro ⟨_, hd⟩
        have hlt : j < out.length := by
          by_contra hge
          rw [List.getD_eq_getElem?_getD, List.getElem?_eq_none (by omega)] at hcond
          simp at hcond
        rw [List.getD_eq_getElem?_getD, List.getElem?_set_self hlt] at hd
        simp only [Option.getD_some] at hd
        exact hv hd
      rw [if_neg hcond']
      have hnm : j ∉ unclaimedFrom n cs (j + 1) out := fun h => by
        have := unclaimedFrom_lb n cs (j + 1) out h; omega
      rw [unclaimedFrom_set_not_mem n cs (j + 1) out hv hnm, hrest]
    · rw [if_neg hcond] at he
      have hj : j ∈ unclaimedFrom n cs (k + 1) out := he ▸ List.mem_cons_self _ _
      have hjk : j ≠ k := fun h => by
        have := unclaimedFrom_lb n cs (k + 1) out hj; omega
      have hcond' : ¬ (c = n ∧ (out.set j (i : Int)).getD k 0 = -1) := by
        rw [getD_set_ne out (Ne.symm (Ne.symm hjk)) _]
        exact hcond
      rw [if_neg hcond']
      exact ih (k + 1) he

/-- An index can sit on the unclaimed list of at most one name. -/
theorem unclaimedFrom_name_unique (n n' : String) (cs : List String) (k : Nat) (out : List Int)
    {j : Nat} (h1 : j ∈ unclaimedFrom n cs k out) (h2 : j ∈ unclaimedFrom n' cs k out) :
    n = n' := by
  induction cs generalizing k with
  | nil => simp [unclaimedFrom] at h1
  | cons c cs ih =>
    simp only [unclaimedFrom] at h1 h2
    by_cases hk : j = k
    · subst hk
      have hc1 : c = n := by
        by_cases hcond : c = n ∧ out.getD j 0 = -1
        · exact hcond.1
        · rw [if_neg hcond] at h1
          have := unclaimedFrom_lb n cs (j + 1) out h1; omega
      have hc2 : c = n' := by
        by_cases hcond : c = n' ∧ out.getD j 0 = -1
        · exact hcond.1
        · rw [if_neg hcond] at h2
          have := unclaimedFrom_lb n' cs (j + 1) out h2; omega
      rw [← hc1, hc2]
    · have h1' : j ∈ unclaimedFrom n cs (k + 1) out := by
        split at h1
        · rcases List.mem_cons.1 h1 with h | h
          · omega
          · exact h
        · exact h1
      have h2' : j ∈ unclaimedFrom n' cs (k + 1) out := by
        split at h2
        · rcases List.mem_cons.1 h2 with h | h
          · omega
          · exact h
        · exact h2
      exact ih (k + 1) h1' h2'

/-- Characterization of the queue-building pass: appending left to right
produces, under each name, the ascending list of that name's column
indices — i.e. its unclaimed list over an all-sentinel output. -/
theorem buildQueues_eq (cs : List String) (i : Nat) (q : String → List Nat)
    (out : List Int) (hout : ∀ k, i ≤ k → k < i + cs.length → out.getD k 0 = -1)
    (n : String) :
    buildQueues cs i q n = q n ++ unclaimedFrom n cs i out := by
  induction cs generalizing i q with
  | nil => simp [buildQueues, unclaimedFrom]
  | cons c cs ih =>
    simp only [buildQueues, unclaimedFrom]
    have hd : out.getD i 0 = -1 := hout i (Nat.le_refl _) (by simp)
    have ih' := ih (i + 1) (Function.update q c (ilnAdd (q c) i))
      (fun k hk1 hk2 => hout k (by omega) (by simp at hk2 ⊢; omega))
    rw [ih']
    by_cases hc : c = n
    · subst hc
      rw [if_pos ⟨rfl, hd⟩, Function.update_same, ilnAdd]
      simp
    · rw [if_neg (fun h => hc h.1), Function.update_noteq (Ne.symm hc)]

/-- Main coupling lemma: whenever every queue agrees with the unclaimed
list of its name, the hash-bucketed field loop and the direct nested-scan
field loop compute the same output. -/
theorem hashedLoop_eq_directLoop (columns : List String) (fs : List (Nat × String))
    (q : String → List Nat) (out : List Int)
    (hq : ∀ n, q n = unclaimedFrom n columns 0 out) :
    hashedLoop fs q out = directLoop columns fs out := by
  induction fs generalizing q out with
  | nil => rfl
  | cons p rest ih =>
    obtain ⟨i, n⟩ := p
    simp only [hashedLoop, directLoop, findSlotFrom_eq_head]
    rw [hq n]
    cases he : unclaimedFrom n columns 0 out with
    | nil =>
      simp only [ilnYoink, List.head?]
      exact ih _ out fun n' => by
        by_cases hn : n' = n
        · subst hn; rw [Function.update_same, he]
        · rw [Function.update_noteq hn, hq n']
    | cons j rest' =>
      simp only [ilnYoink, List.head?]
      exact ih _ (out.set j (i : Int)) fun n' => by
        by_cases hn : n' = n
        · subst hn
          rw [Function.update_same, unclaimedFrom_set_head _ columns 0 out i he]
        · rw [Function.update_noteq hn, hq n']
          have hj : j ∈ unclaimedFrom n columns 0 out := he ▸ List.mem_cons_self _ _
          have hnotmem : j ∉ unclaimedFrom n' columns 0 out := fun h =>
            hn (unclaimedFrom_name_unique n' n columns 0 out h hj)
          rw [unclaimedFrom_set_not_mem n' columns 0 out (by omega) hnotmem]

theorem getD_replicate_neg (m k : Nat) (hk : k < m) :
    (List.replicate m (-1 : Int)).getD k 0 = -1 := by
  rw [List.getD_eq_getElem?_getD, List.getElem?_replicate, if_pos hk]
  rfl

/-- The two strategies of `BuildMap` coincide on every input. -/
theorem buildMapHashed_eq_buildMapDirect (columns fieldNames : List String) :
    buildMapHashed columns fieldNames = buildMapDirect columns fieldNames := by
  unfold buildMapHashed buildMapDirect
  apply hashedLoop_eq_directLoop
  intro n
  have h := buildQueues_eq columns 0 (fun _ => []) (List.replicate columns.length (-1))
    (fun k hk1 hk2 => getD_replicate_neg _ _ (by omega)) n
  simpa using h
theorem length_renderPositionMap (m : Nat) (claims : List (Nat × Nat)) :
    (renderPositionMap m claims).length = m := by
  unfold renderPositionMap
  simp

theorem renderPositionMap_nil (m : Nat) :
    renderPositionMap m [] = List.replicate m (-1) := by
  have h : renderPositionMap m [] = List.map (fun _ => (-1 : Int)) (List.range m) := rfl
  rw [h, List.map_const', List.length_range]

theorem getElem?_renderPositionMap (m : Nat) (claims : List (Nat × Nat)) {j : Nat}
    (hj : j < m) :
    (renderPositionMap m claims)[j]? =
      some (match claims.find? (fun p => p.2 == j) with
        | some p => ((p.1 : Nat) : Int) | none => -1) := by
  unfold renderPositionMap
  rw [List.getElem?_map, List.getElem?_range hj, Option.map_some']

theorem getD_renderPositionMap (m : Nat) (claims : List (Nat × Nat)) {j : Nat} (hj : j < m) :
    (renderPositionMap m claims).getD j 0 =
      (match claims.find? (fun p => p.2 == j) with
        | some p => ((p.1 : Nat) : Int) | none => -1) := by
  rw [List.getD_eq_getElem?_getD, getElem?_renderPositionMap m claims hj]
  rfl

/-- A sentinel slot of the rendered map is exactly an unclaimed column. -/
theorem renderPositionMap_sentinel (m : Nat) (claims : List (Nat × Nat)) {j : Nat}
    (hj : j < m) :
    ((renderPositionMap m claims).getD j 0 = -1 ↔ ∀ p ∈ claims, p.2 ≠ j) := by
  rw [getD_renderPositionMap m claims hj]
  cases hf : claims.find? (fun p => p.2 == j) with
  | none =>
    simp only [List.find?_eq_none] at hf
    exact iff_of_true rfl fun p hp => by simpa using hf p hp
  | some p =>
    have hp2 : p.2 = j := by
      have := List.find?_some hf
      simpa using this
    have hmem := List.mem_of_find?_eq_some hf
    exact iff_of_false (show ¬((p.1 : Nat) : Int) = -1 by omega) fun h => (h p hmem) hp2

/-- Appending a fresh claim `(i, j)` to the claim set is the same as
writing `i` into slot `j` of the rendered map. -/
theorem renderPositionMap_append (m : Nat) (claims : List (Nat × Nat)) (i j : Nat)
    (hj : j < m) (hfresh : ∀ p ∈ claims, p.2 ≠ j) :
    renderPositionMap m (claims ++ [(i, j)]) = (renderPositionMap m claims).set j (i : Int) := by
  apply List.ext_getElem?
  intro k
  by_cases hk : k < m
  · rw [getElem?_renderPositionMap m (claims ++ [(i, j)]) hk]
    by_cases hkj : k = j
    · subst hkj
      rw [List.getElem?_set_self (by rw [length_renderPositionMap]; exact hk)]
      have hnone : claims.find? (fun p => p.2 == k) = none := by
        rw [List.find?_eq_none]
        intro p hp
        simpa using hfresh p hp
      rw [List.find?_append, hnone]
      simp
    · rw [List.getElem?_set_ne (fun h => hkj h.symm),
        getElem?_renderPositionMap m claims hk, List.find?_append]
      have hsingle : List.find? (fun p => p.2 == k) [(i, j)] = none := by
        rw [List.find?_eq_none]
        intro p hp
        simp only [List.mem_singleton] at hp
        subst hp
        simp only [beq_iff_eq]
        exact fun h => hkj h.symm
      rw [hsingle, Option.or_none]
  · rw [List.getElem?_eq_none (by rw [length_renderPositionMap]; omega),
      List.getElem?_eq_none (by rw [List.length_set, length_renderPositionMap]; omega)]

theorem leftmostFrom_lt (n : String) (claimed : List Nat) (cs : List String) (k : Nat)
    {j : Nat} (h : leftmostFrom n claimed cs k = some j) : j < k + cs.length := by
  induction cs generalizing k with
  | nil => simp [leftmostFrom] at h
  | cons c cs ih =>
    simp only [leftmostFrom] at h
    split at h
    · injection h with h'
      simp [← h']
    · have := ih (k + 1) h
      simp only [List.length_cons]
      omega

theorem leftmostFrom_spec (n : String) (claimed : List Nat) (cs : List String) (k : Nat)
    {j : Nat} (h : leftmostFrom n claimed cs k = some j) : j ∉ claimed := by
  induction cs generalizing k with
  | nil => simp [leftmostFrom] at h
  | cons c cs ih =>
    simp only [leftmostFrom] at h
    split at h
    · injection h with h'
      subst h'
      rename_i hcond
      exact hcond.2
    · exact ih (k + 1) h

/-- Bridge between the source inner scan and the spec's "leftmost
not-yet-claimed column": they agree whenever the sentinel slots of the
output are exactly the unclaimed columns. -/
theorem findSlotFrom_eq_leftmostFrom (n : String) (cs : List String) (k : Nat)
    (out : List Int) (claimed : List Nat)
    (hiff : ∀ j, k ≤ j → j < k + cs.length → (out.getD j 0 = -1 ↔ j ∉ claimed)) :
    findSlotFrom n cs k out = leftmostFrom n claimed cs k := by
  induction cs generalizing k with
  | nil => rfl
  | cons c cs ih =>
    simp only [findSlotFrom, leftmostFrom]
    have hk := hiff k (Nat.le_refl _) (by simp)
    have ih' := ih (k + 1) fun j h1 h2 => hiff j (by omega) (by simp at h2 ⊢; omega)
    by_cases hm : out.getD k 0 = -1
    · rw [if_neg (not_not_intro hm)]
      have hnc : k ∉ claimed := hk.1 hm
      by_cases hn : n = c
      · rw [if_pos hn, if_pos ⟨hn.symm, hnc⟩]
      · rw [if_neg hn, if_neg (fun h => hn h.1.symm), ih']
    · rw [if_pos hm]
      have hc : ¬ k ∉ claimed := fun h => hm (hk.2 h)
      rw [if_neg (fun h => hc h.2), ih']

/-- The direct strategy refines the spec's FIFO claim process: starting
from any rendered claim set, running the remaining fields directly yields
the rendering of the extended claim set. -/
theorem directLoop_eq_render (columns : List String) (fs : List (Nat × String))
    (claims : List (Nat × Nat)) (claimed : List Nat)
    (hmem : ∀ j, j ∈ claimed ↔ ∃ p ∈ claims, p.2 = j) :
    directLoop columns fs (renderPositionMap columns.length claims) =
      renderPositionMap columns.length (claims ++ claimFields columns fs claimed) := by
  induction fs generalizing claims claimed with
  | nil => simp [directLoop, claimFields]
  | cons p rest ih =>
    obtain ⟨i, n⟩ := p
    simp only [directLoop, claimFields]
    have hbridge : findSlotFrom n columns 0 (renderPositionMap columns.length claims)
        = leftmostFrom n claimed columns 0 := by
      apply findSlotFrom_eq_leftmostFrom
      intro j h1 h2
      rw [renderPositionMap_sentinel columns.length claims (by simpa using h2)]
      constructor
      · intro h hc
        obtain ⟨p, hp, hpj⟩ := (hmem j).1 hc
        exact h p hp hpj
      · intro h p hp hpj
        exact h ((hmem j).2 ⟨p, hp, hpj⟩)
    rw [hbridge]
    cases hl : leftmostFrom n claimed columns 0 with
    | none =>
      exact ih claims claimed hmem
    | some j =>
      show directLoop columns rest ((renderPositionMap columns.length claims).set j (i : Int))
        = renderPositionMap columns.length
            (claims ++ (i, j) :: claimFields columns rest (j :: claimed))
      have hjm : j < columns.length := by simpa using leftmostFrom_lt n claimed columns 0 hl
      have hjc : j ∉ claimed := leftmostFrom_spec n claimed columns 0 hl
      have hfresh : ∀ p ∈ claims, p.2 ≠ j := by
        intro p hp hpj
        exact hjc ((hmem j).2 ⟨p, hp, hpj⟩)
      rw [← renderPositionMap_append columns.length claims i j hjm hfresh]
      have hmem' : ∀ j', j' ∈ (j :: claimed) ↔ ∃ p ∈ claims ++ [(i, j)], p.2 = j' := by
        intro j'
        simp only [List.mem_cons, List.mem_append, List.not_mem_nil, or_false]
        constructor
        · rintro (h | h)
          · exact ⟨(i, j), Or.inr rfl, h.symm⟩
          · obtain ⟨p, hp, hpj⟩ := (hmem j').1 h
            exact ⟨p, Or.inl hp, hpj⟩
        · rintro ⟨p, hp | hp, hpj⟩
          · exact Or.inr ((hmem j').2 ⟨p, hp, hpj⟩)
          · subst hp
            exact Or.inl hpj.symm
      have hrec := ih (claims ++ [(i, j)]) (j :: claimed) hmem'
      rw [hrec, List.append_assoc]
      rfl

/-- The direct strategy computes exactly the spec's FIFO map. -/
theorem buildMapDirect_eq_specFifoMap (columns fieldNames : List String) :
    buildMapDirect columns fieldNames = specFifoMap columns fieldNames := by
  unfold buildMapDirect specFifoMap
  rw [← renderPositionMap_nil columns.length]
  exact directLoop_eq_render columns fieldNames.enum [] [] (by simp)



/-! ### Descriptor builder: accumulator elimination and order preservation -/

theorem namedFieldsCache_Append_empty (c : namedFieldsCache) :
    c.Append ⟨[], [], []⟩ = c := by
  unfold namedFieldsCache.Append
  simp

theorem namedFieldsCache_empty_Append (c : namedFieldsCache) :
    namedFieldsCache.Append ⟨[], [], []⟩ c = c := by
  unfold namedFieldsCache.Append
  simp

theorem namedFieldsCache_Append_assoc (a b c : namedFieldsCache) :
    (a.Append b).Append c = a.Append (b.Append c) := by
  unfold namedFieldsCache.Append
  simp

theorem namedFieldsCache_Push_eq_Append (c : namedFieldsCache) (name : String)
    (pathPre : List Nat) (value : Nat) (scanner : Bool) :
    c.Push name pathPre value scanner
      = c.Append ⟨[name], [pathPre ++ [value]], [scanner]⟩ := by
  unfold namedFieldsCache.Push namedFieldsCache.Append
  rfl

theorem buildNamedFieldsCacheForType_of_struct (t : GoType) (p : List Nat)
    (ht : isStruct t = true) :
    buildNamedFieldsCacheForType t p = buildCacheFields t 0 p ⟨[], [], []⟩ := by
  cases t with
  | base s => simp [isStruct] at ht
  | snil s => rfl
  | scons info ftype rest => rfl

/-- Accumulator elimination: the field loop produces the accumulated output
followed by the in-order concatenation of the per-field contributions. -/
theorem buildCacheFields_eq_descFlatten (t : GoType) (i : Nat) (path : List Nat)
    (acc : namedFieldsCache) :
    buildCacheFields t i path acc =
      match descFlatten t i path with
      | .error e => .error e
      | .ok c => .ok (acc.Append c) := by
  induction t generalizing i path acc with
  | base s => simp [buildCacheFields, descFlatten, namedFieldsCache_Append_empty]
  | snil s => simp [buildCacheFields, descFlatten, namedFieldsCache_Append_empty]
  | scons info ftype rest ihf ihr =>
    simp only [buildCacheFields, descFlatten, fieldContribution]
    by_cases h1 : info.pkgPath = "" ∧ info.tag.isSome
    · rw [if_pos h1, if_pos h1, ihr]
      cases descFlatten rest (i + 1) path with
      | error e => rfl
      | ok tail =>
        simp only [namedFieldsCache_Push_eq_Append, namedFieldsCache_Append_assoc]
    · rw [if_neg h1, if_neg h1]
      by_cases h2 : info.anonymous ∧ isStruct ftype
      · rw [if_pos h2, if_pos h2, buildNamedFieldsCacheForType_of_struct ftype _ h2.2]
        cases buildCacheFields ftype 0 (path ++ [i]) ⟨[], [], []⟩ with
        | error e => rfl
        | ok sub =>
          simp only [ihr]
          cases descFlatten rest (i + 1) path with
          | error e => rfl
          | ok tail => simp only [namedFieldsCache_Append_assoc]
      · rw [if_neg h2, if_neg h2, ihr]
        cases descFlatten rest (i + 1) path with
        | error e => rfl
        | ok tail => simp only [namedFieldsCache_empty_Append]

/-- Claim C5: the descriptor built by the field-cache builder lists entries
in declaration order — each field's contribution concatenated at the point
of its declaration — where an anonymous embedded struct contributes its
whole sub-descriptor (depth-first, path extended by its index), a named
nested struct and an unexported field (even a tagged one) contribute
nothing, and a tagged exported field contributes its own entry; for tagged
fields `[f1, f2]` preceded by an anonymous embedded struct tagged `[f0]`
the resulting order is `[f0, f1, f2]`. -/
theorem claim_C5 :
    (∀ (info : GoFieldInfo) (ftype rest : GoType) (path : List Nat),
      buildNamedFieldsCacheForType (.scons info ftype rest) path
        = descFlatten (.scons info ftype rest) 0 path)
    ∧ (∀ (s : Bool) (path : List Nat),
      buildNamedFieldsCacheForType (.snil s) path = descFlatten (.snil s) 0 path)
    ∧ buildNamedFieldsCacheForType exampleStruct []
        = .ok ⟨["f0", "f1", "f2"], [[0, 0], [1], [2]], [false, false, false]⟩ := by
  refine ⟨?_, ?_, by rfl⟩
  · intro info ftype rest path
    rw [buildNamedFieldsCacheForType_of_struct (.scons info ftype rest) path rfl,
      buildCacheFields_eq_descFlatten]
    cases descFlatten (.scons info ftype rest) 0 path with
    | error e => rfl
    | ok c => simp only [namedFieldsCache_empty_Append]
  · intro s path
    rfl

/-! ### Descriptor cache: idempotent resolution -/

theorem mem_of_lookup_eq_some {β : Type} (l : List (Nat × β)) (k : Nat) (v : β)
    (h : l.lookup k = some v) : (k, v) ∈ l := by
  induction l with
  | nil => simp [List.lookup] at h
  | cons p rest ih =>
    obtain ⟨a, b⟩ := p
    simp only [List.lookup] at h
    by_cases hk : k = a
    · subst hk
      simp only [beq_self_eq_true] at h
      injection h with h
      subst h
      exact List.mem_cons_self _ _
    · have hba : (k == a) = false := by simp [hk]
      rw [hba] at h
      exact List.mem_cons_of_mem _ (ih h)

/-- Claim C8: descriptor resolution is idempotent — against a well-formed
cache, any successful resolution returns exactly what a fresh build for
the type produces, preserves well-formedness, and a second resolution
returns the same descriptor and the same cache (whether the first was a
fresh build or a cache hit). -/
theorem claim_C8 (tenv : Nat → GoType) (cache : List (Nat × namedFieldsCache)) (tid : Nat)
    (c : namedFieldsCache) (cache₂ : List (Nat × namedFieldsCache))
    (hwf : cacheWF tenv cache)
    (hres : resolveDescriptor tenv cache tid = .ok (c, cache₂)) :
    buildNamedFieldsCacheForType (tenv tid) [] = .ok c
    ∧ cacheWF tenv cache₂
    ∧ resolveDescriptor tenv cache₂ tid = .ok (c, cache₂) := by
  unfold resolveDescriptor at hres
  cases hl : cache.lookup tid with
  | some cached =>
    rw [hl] at hres
    simp only [Except.ok.injEq, Prod.mk.injEq] at hres
    obtain ⟨h1, h2⟩ := hres
    rw [← h1, ← h2]
    have hmem := mem_of_lookup_eq_some cache tid cached hl
    refine ⟨hwf _ hmem, hwf, ?_⟩
    unfold resolveDescriptor
    rw [hl]
  | none =>
    rw [hl] at hres
    cases hb : buildNamedFieldsCacheForType (tenv tid) [] with
    | error e =>
      rw [hb] at hres
      exact absurd hres (by simp)
    | ok built =>
      rw [hb] at hres
      simp only [Except.ok.injEq, Prod.mk.injEq] at hres
      obtain ⟨h1, h2⟩ := hres
      rw [← h1, ← h2]
      refine ⟨rfl, ?_, ?_⟩
      · intro p hp
        rcases List.mem_cons.1 hp with hp | hp
        · rw [hp]
          exact hb
        · exact hwf _ hp
      · unfold resolveDescriptor
        have hlk : List.lookup tid ((tid, built) :: cache) = some built := by
          simp [List.lookup]
        rw [hlk]

/-- Witness for C8 at a concrete type and the empty cache. -/
theorem claim_C8_witness :
    buildNamedFieldsCacheForType ((fun _ => exampleStruct) 0) [] =
        .ok ⟨["f0", "f1", "f2"], [[0, 0], [1], [2]], [false, false, false]⟩
    ∧ cacheWF (fun _ => exampleStruct)
        [(0, ⟨["f0", "f1", "f2"], [[0, 0], [1], [2]], [false, false, false]⟩)]
    ∧ resolveDescriptor (fun _ => exampleStruct)
        [(0, ⟨["f0", "f1", "f2"], [[0, 0], [1], [2]], [false, false, false]⟩)] 0
      = .ok (⟨["f0", "f1", "f2"], [[0, 0], [1], [2]], [false, false, false]⟩,
          [(0, ⟨["f0", "f1", "f2"], [[0, 0], [1], [2]], [false, false, false]⟩)]) :=
  claim_C8 (fun _ => exampleStruct) [] 0
    ⟨["f0", "f1", "f2"], [[0, 0], [1], [2]], [false, false, false]⟩
    [(0, ⟨["f0", "f1", "f2"], [[0, 0], [1], [2]], [false, false, false]⟩)]
    (by intro p hp; simp at hp) rfl


/-! ### Sequence grower: rollback invariant -/

theorem appended_dropLast (zero : α) (slices : List (List α)) :
    (slices.map (· ++ [zero])).map List.dropLast = slices := by
  rw [List.map_map]
  have h : (List.dropLast ∘ fun s => s ++ [zero]) = @id (List α) :=
    funext fun s => List.dropLast_concat
  rw [h, List.map_id]

/-- A failing iteration rolls the appended elements straight back: the loop
on `pre ++ f :: post` with `pre` all successful and `f` failing stops in
the error state with the slices exactly as the successful prefix left
them. -/
theorem ScanArrayLoop_fail (zero : α) (pre : List (StepResult α)) (f : StepResult α)
    (post : List (StepResult α)) (slices : List (List α))
    (hpre : ∀ r ∈ pre, r.isOk = true) (hf : f.isOk = false) :
    ScanArrayLoop zero (pre ++ f :: post) slices = (okState zero pre slices, true) := by
  induction pre generalizing slices with
  | nil =>
    cases f with
    | scanOk vals => simp [StepResult.isOk] at hf
    | iterErr =>
      simp only [List.nil_append, ScanArrayLoop, okState]
      rw [appended_dropLast]
    | renderErr =>
      simp only [List.nil_append, ScanArrayLoop, okState]
      rw [appended_dropLast]
    | scanErr =>
      simp only [List.nil_append, ScanArrayLoop, okState]
      rw [appended_dropLast]
  | cons r rest ih =>
    have hr : r.isOk = true := hpre r (List.mem_cons_self _ _)
    cases r with
    | scanOk vals =>
      simp only [List.cons_append, ScanArrayLoop, okState]
      exact ih _ fun x hx => hpre x (List.mem_cons_of_mem _ hx)
    | iterErr => simp [StepResult.isOk] at hr
    | renderErr => simp [StepResult.isOk] at hr
    | scanErr => simp [StepResult.isOk] at hr

/-- A fully successful run performs no truncation: the loop result is the
populated state with the success flag. -/
theorem ScanArrayLoop_ok (zero : α) (steps : List (StepResult α)) (slices : List (List α))
    (hsteps : ∀ r ∈ steps, r.isOk = true) :
    ScanArrayLoop zero steps slices = (okState zero steps slices, false) := by
  induction steps generalizing slices with
  | nil => rfl
  | cons r rest ih =>
    have hr : r.isOk = true := hsteps r (List.mem_cons_self _ _)
    cases r with
    | scanOk vals =>
      simp only [ScanArrayLoop, okState]
      exact ih _ fun x hx => hsteps x (List.mem_cons_of_mem _ hx)
    | iterErr => simp [StepResult.isOk] at hr
    | renderErr => simp [StepResult.isOk] at hr
    | scanErr => simp [StepResult.isOk] at hr

theorem populateLast_lengths (zero : α) (vals : Nat → α) (k : Nat) (slices : List (List α))
    (i : Nat) :
    (populateLast vals i (slices.map (· ++ [zero]))).map (fun s => s.length + k)
      = slices.map (fun s => s.length + (k + 1)) := by
  induction slices generalizing i with
  | nil => rfl
  | cons s rest ih =>
    simp only [List.map_cons, populateLast, List.dropLast_concat]
    rw [ih]
    congr 1
    simp only [List.length_append, List.length_cons, List.length_nil]
    omega

/-- After a successful run each slice has grown by exactly the number of
iterations. -/
theorem okState_lengths (zero : α) (steps : List (StepResult α)) (slices : List (List α))
    (hsteps : ∀ r ∈ steps, r.isOk = true) :
    (okState zero steps slices).map List.length
      = slices.map (fun s => s.length + steps.length) := by
  induction steps generalizing slices with
  | nil => simp [okState]
  | cons r rest ih =>
    have hr : r.isOk = true := hsteps r (List.mem_cons_self _ _)
    cases r with
    | scanOk vals =>
      simp only [okState]
      rw [ih _ fun x hx => hsteps x (List.mem_cons_of_mem _ hx)]
      have h := populateLast_lengths zero vals rest.length slices 0
      rw [h]
      simp only [List.length_cons]
    | iterErr => simp [StepResult.isOk] at hr
    | renderErr => simp [StepResult.isOk] at hr
    | scanErr => simp [StepResult.isOk] at hr

/-- Claim C3: once the per-row loop has begun, any failure inside it — the
iteration-level error check, the field-list re-render, or the per-row scan
— leaves every target sequence truncated by exactly one element, so the
caller sees exactly the elements populated by the successful prefix and an
error; a fully successful run truncates nothing, and each slice grows by
exactly the number of successful rows. -/
theorem claim_C3 (zero : α) (pre : List (StepResult α)) (f : StepResult α)
    (post : List (StepResult α)) (slices : List (List α))
    (hpre : ∀ r ∈ pre, r.isOk = true) (hf : f.isOk = false) :
    ScanArrayLoop zero (pre ++ f :: post) slices = (okState zero pre slices, true)
    ∧ ScanArrayLoop zero pre slices = (okState zero pre slices, false)
    ∧ (okState zero pre slices).map List.length
        = slices.map (fun s => s.length + pre.length) :=
  ⟨ScanArrayLoop_fail zero pre f post slices hpre hf,
   ScanArrayLoop_ok zero pre slices hpre,
   okState_lengths zero pre slices hpre⟩

/-- Witness for C3: a two-row source whose second row's transfer fails
leaves the target sequence with exactly the first row's element and the
error state; the one-row successful prefix alone succeeds untruncated. -/
theorem claim_C3_witness :
    ScanArrayLoop (0 : Nat) [StepResult.scanOk (fun _ => 7), StepResult.scanErr] [[]]
      = ([[7]], true)
    ∧ ScanArrayLoop (0 : Nat) [StepResult.scanOk (fun _ => 7)] [[]] = ([[7]], false) := by
  have h := claim_C3 (0 : Nat) [StepResult.scanOk (fun _ => 7)] StepResult.scanErr [] [[]]
    (by intro r hr; simp only [List.mem_singleton] at hr; subst hr; rfl) rfl
  exact ⟨h.1, h.2.1⟩

/-! ### Post-scan hooks -/

/-- When the hook walk succeeds, the log is exactly the implementers of the
post-scan capability, in target order. -/
theorem postScan_ok_log (into : List (ScanIntoObj α)) (h : (postScan into).1 = .ok ()) :
    (postScan into).2 = hookTargets into := by
  induction into with
  | nil => rfl
  | cons x xs ih =>
    simp only [postScan, hookTargets, List.filter_cons] at h ⊢
    cases hx : x.PostScan with
    | none =>
      rw [hx] at h
      exact ih h
    | some r =>
      cases r with
      | error e =>
        rw [hx] at h
        exact Except.noConfusion h
      | ok u =>
        rw [hx] at h
        exact congrArg (List.cons x.id) (ih h)

/-- The scan tail logs the implementers exactly when it succeeds. -/
theorem afterScan_log (into : List (ScanIntoObj α)) (r : Except String Unit)
    (h : (afterScan into r).1 = .ok ()) : (afterScan into r).2 = hookTargets into := by
  cases r with
  | error e => exact Except.noConfusion h
  | ok u => exact postScan_ok_log into h

/-- Claim C9: after a successful single-object scan through any of the
three entry points, the post-scan hook runs exactly once per implementing
target, in target order; the array-growing path never invokes any hook. -/
theorem claim_C9 {α : Type} [Inhabited α] (s : Scannable α) (adv : AdvancedScannable α)
    (m : Option (List Int)) (into : List (ScanIntoObj α)) :
    ((QuickScan s into).1 = .ok () → (QuickScan s into).2 = hookTargets into)
    ∧ ((Scan adv into).1 = .ok () → (Scan adv into).2 = hookTargets into)
    ∧ ((ScanWithMap s m into).1 = .ok () → (ScanWithMap s m into).2 = hookTargets into)
    ∧ (∀ (zero : α) (steps : List (StepResult α)) (slices : List (List α)),
        (ScanArrayRun zero steps slices).2 = []) := by
  refine ⟨?_, ?_, ?_, fun _ _ _ => rfl⟩
  · intro h
    unfold QuickScan at h ⊢
    cases hb : BuildNamedFields into with
    | error e =>
      rw [hb] at h
      exact Except.noConfusion h
    | ok fields =>
      rw [hb] at h
      exact afterScan_log into _ h
  · intro h
    unfold Scan at h ⊢
    cases hb : BuildNamedFields into with
    | error e =>
      rw [hb] at h
      exact Except.noConfusion h
    | ok fields =>
      rw [hb] at h
      exact afterScan_log into _ h
  · intro h
    unfold ScanWithMap at h ⊢
    cases hb : BuildNamedFields into with
    | error e =>
      rw [hb] at h
      exact Except.noConfusion h
    | ok fields =>
      rw [hb] at h
      exact afterScan_log into _ h

/-- Witness for C9 at a concrete two-target scan (first target implements
the hook, second does not): the hook log is exactly `[1]` on all three
entry points, and a concrete grower run logs no hook. -/
theorem claim_C9_witness :
    (QuickScan (⟨fun _ => .ok ()⟩ : Scannable Nat)
        [⟨1, .ok ⟨["a"], [5]⟩, some (.ok ())⟩, ⟨2, .ok ⟨["b"], [6]⟩, none⟩]).2 = [1]
    ∧ (Scan (⟨⟨fun _ => .ok ()⟩, .ok (some ["a", "b"])⟩ : AdvancedScannable Nat)
        [⟨1, .ok ⟨["a"], [5]⟩, some (.ok ())⟩, ⟨2, .ok ⟨["b"], [6]⟩, none⟩]).2 = [1]
    ∧ (ScanWithMap (⟨fun _ => .ok ()⟩ : Scannable Nat) (some [0, 1])
        [⟨1, .ok ⟨["a"], [5]⟩, some (.ok ())⟩, ⟨2, .ok ⟨["b"], [6]⟩, none⟩]).2 = [1]
    ∧ (ScanArrayRun (0 : Nat) [StepResult.scanOk (fun _ => 7)] [[]]).2 = [] := by
  have h := claim_C9 (⟨fun _ => .ok ()⟩ : Scannable Nat)
    (⟨⟨fun _ => .ok ()⟩, .ok (some ["a", "b"])⟩ : AdvancedScannable Nat) (some [0, 1])
    [⟨1, .ok ⟨["a"], [5]⟩, some (.ok ())⟩, ⟨2, .ok ⟨["b"], [6]⟩, none⟩]
  exact ⟨h.1 rfl, h.2.1 rfl, h.2.2.1 rfl, h.2.2.2 0 [StepResult.scanOk (fun _ => 7)] [[]]⟩


/-! ### Claim theorems for the column matcher and scan executor -/

/-- Claim C1: `BuildMap` pairs names FIFO left-to-right — the map it
produces is exactly the specification's claim process (each field name, in
field order, claims the leftmost not-yet-claimed column of its name; an
unclaimed column maps to `-1`; an unmatched field contributes nothing and
raises no error) — and on the two canonical duplicate examples fields
`["a","a"]` against columns `["a","a"]` give `[0, 1]` while fields `["a"]`
against columns `["a","a"]` give `[0, -1]`. -/
theorem claim_C1 (columns fieldNames : List String) :
    BuildMap (.ok (some columns)) fieldNames = .ok (some (specFifoMap columns fieldNames))
    ∧ BuildMap (.ok (some ["a", "a"])) ["a", "a"] = .ok (some [0, 1])
    ∧ BuildMap (.ok (some ["a", "a"])) ["a"] = .ok (some [0, -1]) := by
  refine ⟨?_, by rfl, by rfl⟩
  show Except.ok (some (if ((columns.length : Int) - 5) * ((fieldNames.length : Int) - 5) > 100
      then buildMapHashed columns fieldNames else buildMapDirect columns fieldNames))
    = Except.ok (some (specFifoMap columns fieldNames))
  rw [buildMapHashed_eq_buildMapDirect, ite_self, buildMapDirect_eq_specFifoMap]

/-- Claim C2: the hash-bucketed strategy and the direct nested scan compute
the same map on every input, so `BuildMap`'s threshold never changes the
resulting map. -/
theorem claim_C2 (columns fieldNames : List String) :
    buildMapHashed columns fieldNames = buildMapDirect columns fieldNames
    ∧ BuildMap (.ok (some columns)) fieldNames
        = .ok (some (buildMapDirect columns fieldNames)) := by
  refine ⟨buildMapHashed_eq_buildMapDirect columns fieldNames, ?_⟩
  show Except.ok (some (if ((columns.length : Int) - 5) * ((fieldNames.length : Int) - 5) > 100
      then buildMapHashed columns fieldNames else buildMapDirect columns fieldNames))
    = Except.ok (some (buildMapDirect columns fieldNames))
  rw [buildMapHashed_eq_buildMapDirect, ite_self]

theorem directLoop_nil_columns (fs : List (Nat × String)) (out : List Int) :
    directLoop [] fs out = out := by
  induction fs with
  | nil => rfl
  | cons p rest ih =>
    obtain ⟨i, n⟩ := p
    simp only [directLoop, findSlotFrom]
    exact ih

/-- Claim C4: the "unavailable" column sentinel makes `BuildMap` return the
nil map, with which `ScanWithMappedFields` passes the field handles to the
row source verbatim, unmodified and in order — a mode distinct from a
zero-length column list, which yields an empty (non-nil) map. -/
theorem claim_C4 {α : Type} [Inhabited α] (s : Scannable α) (names : List String)
    (fields : NamedFields α) (h : fields.Fields ≠ []) :
    BuildMap (.ok none) names = .ok none
    ∧ ScanWithMappedFields s none fields = s.Scan (fields.Fields.map Target.field)
    ∧ BuildMap (.ok (some [])) names = .ok (some []) := by
  refine ⟨rfl, ?_, ?_⟩
  · show (if (fields.Fields.map Target.field).length = 0
        then (Except.error "cannot scan into empty list of fields" : Except String Unit)
        else s.Scan (fields.Fields.map Target.field))
      = s.Scan (fields.Fields.map Target.field)
    rw [if_neg (by rw [List.length_map, List.length_eq_zero]; exact h)]
  · show Except.ok (some (if ((0 : Int) - 5) * ((names.length : Int) - 5) > 100
        then buildMapHashed [] names else buildMapDirect [] names)) = .ok (some [])
    have harith : ((0 : Int) - 5) * ((names.length : Int) - 5)
        = 25 - 5 * (names.length : Int) := by ring
    rw [if_neg (by rw [harith]; omega), buildMapDirect, directLoop_nil_columns]
    rfl

/-- Witness for C4 with a one-field list. -/
theorem claim_C4_witness :
    (([5] : List Nat) ≠ [])
    ∧ BuildMap (.ok none) ["a"] = .ok none
    ∧ ScanWithMappedFields (⟨fun _ => .ok ()⟩ : Scannable Nat) none ⟨["a"], [5]⟩
        = Scannable.Scan ⟨fun _ => .ok ()⟩ ([5].map Target.field)
    ∧ BuildMap (.ok (some [])) ["a"] = .ok (some []) := by
  have h := claim_C4 (⟨fun _ => .ok ()⟩ : Scannable Nat) ["a"] ⟨["a"], [5]⟩ (by simp)
  exact ⟨by simp, h.1, h.2.1, h.2.2⟩

/-- Claim C6: whenever the final handle list would be empty — a nil map
over an empty field list, or a zero-length map — `ScanWithMappedFields`
returns the empty-scan error for every row source, without invoking its
`Scan`. -/
theorem claim_C6 {α : Type} [Inhabited α] (s : Scannable α) (m : Option (List Int))
    (fields : NamedFields α)
    (h : (m = none ∧ fields.Fields = []) ∨ m = some []) :
    ScanWithMappedFields s m fields = .error "cannot scan into empty list of fields" := by
  unfold ScanWithMappedFields
  rcases h with ⟨hm, hf⟩ | hm
  · subst hm
    rw [hf]
    rfl
  · subst hm
    rfl

/-- Witness for C6: a zero-length map over a nonempty field list. -/
theorem claim_C6_witness :
    ((some ([] : List Int) = none ∧ ([5] : List Nat) = []) ∨ some ([] : List Int) = some [])
    ∧ ScanWithMappedFields (⟨fun _ => .ok ()⟩ : Scannable Nat) (some [])
        (⟨["a"], [5]⟩ : NamedFields Nat)
      = .error "cannot scan into empty list of fields" :=
  ⟨Or.inr rfl,
   claim_C6 (⟨fun _ => .ok ()⟩ : Scannable Nat) (some []) ⟨["a"], [5]⟩ (Or.inr rfl)⟩

/-- Claim C7: an empty target list is rejected with the arity error by
`BuildNamedFields` and hence by every scan entry point, for every
collaborator state — no row-source method is consulted. -/
theorem claim_C7 {α : Type} [Inhabited α] (s : Scannable α) (adv : AdvancedScannable α)
    (m : Option (List Int)) :
    BuildNamedFields ([] : List (ScanIntoObj α)) = .error "empty output object list"
    ∧ QuickScan s [] = (.error "empty output object list", [])
    ∧ Scan adv [] = (.error "empty output object list", [])
    ∧ ScanWithMap s m [] = (.error "empty output object list", []) :=
  ⟨rfl, rfl, rfl, rfl⟩

/-- Claim C10: the wrapper produced by `WrapBasic` answers `Next` true on
the first call and false on every later call, reports no iteration error,
returns the nil column sentinel, and therefore drives `BuildMap` into
verbatim mode for every field list. -/
theorem claim_C10 {σ : Type} (x : σ) (s : scannableWrapper σ) (names : List String) :
    (WrapBasic x).Next = (true, ⟨x, true⟩)
    ∧ (s.Next.2).Next = (false, s.Next.2)
    ∧ s.Err = none
    ∧ s.ColumnNames = .ok none
    ∧ BuildMap s.ColumnNames names = .ok none := by
  refine ⟨rfl, ?_, rfl, rfl, rfl⟩
  unfold scannableWrapper.Next
  by_cases h : s.done <;> simp [h]

end Dml
